import Mathlib

/-!
Verification of the primel-solver candidate engine.

A shallow embedding, in Lean 4, of the core functions of the Go program
`primel-solver` (files `main.go` — the simulation-scoring variant — and an
earlier variant of the same program — the frequency-scoring variant), together
with theorems checking its natural-language specification.

Conventions of the embedding:
  * Go `uint` values are modelled as `Nat`; none of the arithmetic in the
    embedded code can overflow 64 bits on the inputs the program uses, and all
    quantities are non-negative.
  * Go slices are modelled as `List`; the Go helper `filter` (append-preserving
    selection) is `List.filter`, indexed reads `s[i]` are `List.getD i _`
    (the theorems below are only about in-range reads, where the two agree;
    out-of-range reads panic in Go).
  * `for` loops are folds or structural recursions over the list of the loop's
    index values, taken in the loop's order.
-/

namespace PrimelSolver

/-- Embeds Go `feedbackType` (`main.go`): `iota` constants
`feedbackTypeAbsent = 0`, `feedbackTypePresent = 1`, `feedbackTypeCorrect = 2`.
The first constructor is the Go zero value. -/
inductive FeedbackType where
  | absent
  | present
  | correct
deriving DecidableEq, Repr, Inhabited

/-- Embeds Go `type feedback struct { digit uint; feedbackType feedbackType }`.
The `Inhabited` default is the Go zero value `{digit: 0, feedbackType: absent}`. -/
structure Feedback where
  digit : Nat
  feedbackType : FeedbackType
deriving DecidableEq, Repr

instance : Inhabited Feedback := ⟨0, .absent⟩

/-- Embeds Go `contains(slice []uint, elem uint) bool` (`main.go`): linear scan
for an equal element. -/
def contains (slice : List Nat) (elem : Nat) : Bool :=
  match slice with
  | [] => false
  | x :: rest => if x == elem then true else contains rest elem

/-- Embeds Go `getDigits(num, numberOfDigits uint) []uint` (`main.go`): repeatedly
take `num % 10` and divide by 10, so the result lists `numberOfDigits` decimal
digits least-significant first. -/
def getDigits (num : Nat) (numberOfDigits : Nat) : List Nat :=
  match numberOfDigits with
  | 0 => []
  | k + 1 => num % 10 :: getDigits (num / 10) k

/-- Reconstruction of a number from a least-significant-first digit sequence by
Horner's method (the inverse direction of `getDigits`, stated by the spec's
Digit Codec property). -/
def hornerRecompose : List Nat → Nat
  | [] => 0
  | d :: rest => d + 10 * hornerRecompose rest

theorem contains_eq_true_iff (slice : List Nat) (elem : Nat) :
    contains slice elem = true ↔ elem ∈ slice := by
  induction slice with
  | nil => simp [contains]
  | cons x rest ih =>
    rw [contains]
    by_cases h : x = elem
    · subst h; simp
    · have hb : (x == elem) = false := beq_eq_false_iff_ne.mpr h
      simp [hb, ih, Ne.symm h]

theorem getDigits_length (num numberOfDigits : Nat) :
    (getDigits num numberOfDigits).length = numberOfDigits := by
  induction numberOfDigits generalizing num with
  | zero => rfl
  | succ k ih => simp [getDigits, ih]

theorem hornerRecompose_getDigits (num k : Nat) :
    hornerRecompose (getDigits num k) = num % 10 ^ k := by
  induction k generalizing num with
  | zero => simp [getDigits, hornerRecompose, Nat.mod_one]
  | succ k ih =>
    simp only [getDigits, hornerRecompose, ih]
    have hx := Nat.div_add_mod (num % 10 ^ (k + 1)) 10
    have h10 : num % 10 ^ (k + 1) % 10 = num % 10 :=
      Nat.mod_mod_of_dvd num (dvd_pow_self 10 (Nat.succ_ne_zero k))
    have hdiv : num % 10 ^ (k + 1) / 10 = num / 10 % 10 ^ k := by
      rw [pow_succ, Nat.mul_comm]
      exact Nat.mod_mul_right_div_self num 10 (10 ^ k)
    omega

/-- C7: for every number `n`, `getDigits n 5` is a sequence of exactly 5 digits
(least-significant first), and for `n < 100000` recomposing those digits by
Horner's method yields `n` back. -/
theorem getDigits_roundTrip (n : Nat) :
    (getDigits n 5).length = 5 ∧
      (n < 100000 → hornerRecompose (getDigits n 5) = n) := by
  refine ⟨getDigits_length n 5, fun h => ?_⟩
  rw [hornerRecompose_getDigits]
  exact Nat.mod_eq_of_lt (by norm_num at h ⊢; omega)

/-- Embeds the first pass of Go `getFeedbackPerDigit` (`main.go`): the report
starts as `make([]feedback, n)` (all zero values) and every position `i` with
`guessDigits[i] == possibleSolutionDigits[i]` is overwritten with
`{feedbackType: correct, digit: guessDigits[i]}`. -/
def firstPass (guessDigits possibleSolutionDigits : List Nat) : List Feedback :=
  (List.range guessDigits.length).map (fun i =>
    if guessDigits.getD i 0 = possibleSolutionDigits.getD i 0 then
      ⟨guessDigits.getD i 0, .correct⟩
    else default)

/-- Embeds the inner `j` loop of the second pass of Go `getFeedbackPerDigit`:
for a non-Correct position whose guess digit is `gi`, scan the solution
positions `j` in order; skip Correct-marked positions, answer Present on the
first non-Correct match, answer Absent at the last index when it is reached
and does not match, and fall out of the loop with the zero value when the last
index is Correct-marked. During the second pass the Go code reads the report
it is rewriting, but the positions it has rewritten are never Correct, so the
Correct test agrees with reading the first-pass report, which is what this
definition scans. `js` is the list of indices the loop still has to visit. -/
def scanSolution (possibleSolutionDigits : List Nat) (fp : List Feedback)
    (gi : Nat) : List Nat → Feedback
  | [] => default
  | j :: rest =>
    if (fp.getD j default).feedbackType = .correct then
      scanSolution possibleSolutionDigits fp gi rest
    else if possibleSolutionDigits.getD j 0 = gi then ⟨gi, .present⟩
    else if j = possibleSolutionDigits.length - 1 then ⟨gi, .absent⟩
    else scanSolution possibleSolutionDigits fp gi rest

/-- Embeds Go `getFeedbackPerDigit(guessDigits, possibleSolutionDigits []uint)
[]feedback` (`main.go`) after its length guard: the first pass marks the
Correct positions, and the second pass classifies every other position by
scanning the whole solution (`scanSolution`). -/
def getFeedbackPerDigit (guessDigits possibleSolutionDigits : List Nat) :
    List Feedback :=
  let fp := firstPass guessDigits possibleSolutionDigits
  (List.range guessDigits.length).map (fun i =>
    if (fp.getD i default).feedbackType = .correct then fp.getD i default
    else scanSolution possibleSolutionDigits fp (guessDigits.getD i 0)
      (List.range possibleSolutionDigits.length))

/-- Embeds the `panic` length guard of Go `getFeedbackPerDigit`: the Go
function panics (`LengthMismatch` in the spec's taxonomy) when the two digit
sequences differ in length, and otherwise computes `getFeedbackPerDigit`. -/
def getFeedbackPerDigitChecked (guessDigits possibleSolutionDigits : List Nat) :
    Option (List Feedback) :=
  if guessDigits.length ≠ possibleSolutionDigits.length then none
  else some (getFeedbackPerDigit guessDigits possibleSolutionDigits)

theorem getFeedbackPerDigitChecked_isSome_iff (gd sd : List Nat) :
    (getFeedbackPerDigitChecked gd sd).isSome = true ↔ gd.length = sd.length := by
  by_cases h : gd.length = sd.length <;>
    simp [getFeedbackPerDigitChecked, h]

/-- The list `correctPositions` that the first loop of Go `incorporateFeedback`
(`main.go`) accumulates: the indices of the report marked Correct, in
ascending order. -/
def correctPositionsOf (feedbackPerDigit : List Feedback) : List Nat :=
  (List.range feedbackPerDigit.length).filter
    (fun i => (feedbackPerDigit.getD i default).feedbackType == .correct)

/-- Embeds Go `incorporateFeedback(feedbackPerDigit []feedback, candidates
[]uint) []uint` (`main.go`; the earlier variant has the identical function).
The first loop collects `correctPositions` and, for each Correct position,
retains only candidates whose digit there equals the fed-back digit (that
filter does not read `correctPositions`, so collecting and filtering commute).
The second loop then filters by the Present and Absent positions using the
complete `correctPositions`. Go's order-preserving `filter` helper is
`List.filter`; the loops over the report are folds over `List.range` of its
length. The Go `default:` branch (`os.Exit(2)`, the spec's
`InvalidFeedbackKind`) is unrepresentable here because `FeedbackType` is a
closed inductive type with exactly the three declared constants. -/
def incorporateFeedback (feedbackPerDigit : List Feedback)
    (candidates : List Nat) : List Nat :=
  let correctPositions := correctPositionsOf feedbackPerDigit
  let afterCorrect := (List.range feedbackPerDigit.length).foldl
    (fun acc i =>
      if (feedbackPerDigit.getD i default).feedbackType = .correct then
        acc.filter (fun candidate =>
          (getDigits candidate 5).getD i 0 == (feedbackPerDigit.getD i default).digit)
      else acc)
    candidates
  (List.range feedbackPerDigit.length).foldl
    (fun acc i =>
      match (feedbackPerDigit.getD i default).feedbackType with
      | .correct => acc
      | .present => acc.filter (fun candidate =>
          (List.range 5).any (fun index =>
            (getDigits candidate 5).getD index 0 == (feedbackPerDigit.getD i default).digit
              && index != i && !(contains correctPositions index)))
      | .absent => acc.filter (fun candidate =>
          (List.range 5).all (fun index =>
            !((getDigits candidate 5).getD index 0 == (feedbackPerDigit.getD i default).digit
              && !(contains correctPositions index)))))
    afterCorrect

/-- Embeds Go `sieve`'s inner marking loop (`main.go`): starting at index `j`,
set every index `j`, `j + (i+2)`, `j + 2*(i+2)`, … of the candidate flags to
`false`, stopping at the end of the slice. The step is the prime value `i + 2`
of the outer loop's index `i`, which also makes the recursion terminate. -/
def markMultiples (candidates : List Bool) (i j : Nat) : List Bool :=
  if h : j < candidates.length then
    markMultiples (candidates.set j false) i (j + (i + 2))
  else candidates
termination_by candidates.length - j
decreasing_by simpa using by omega

/-- Embeds Go `sieve`'s outer loop (`main.go`): visit the flag indices in
order (`js` is the list of indices still to visit); when index `i` is still
`true`, record the prime `i + 2` and mark all its larger multiples, starting
at index `(i+2)*2 - 2`. `markMultiples` preserves the length of the flags, so
the index list fixed up front matches Go's `i < len(candidates)` bound. -/
def sieveLoop (candidates : List Bool) (primes : List Nat) : List Nat → List Nat
  | [] => primes
  | i :: rest =>
    if candidates.getD i false then
      sieveLoop (markMultiples candidates i ((i + 2) * 2 - 2)) (primes ++ [i + 2]) rest
    else sieveLoop candidates primes rest

/-- Embeds Go `sieve(max uint) []uint` (`main.go`): for `max < 2` the empty
list, otherwise a sieve of Eratosthenes over the flags for the values
`2 .. max-1` (index `i` stands for the value `i + 2`). -/
def sieve (max : Nat) : List Nat :=
  if max < 2 then []
  else sieveLoop (List.replicate (max - 2) true) [] (List.range (max - 2))

/-- Embeds Go `getPrimes(from, to uint) []uint` (`main.go`): the primes below
`to` whose value is at least `from`, kept in the sieve's order. -/
def getPrimes (lo hi : Nat) : List Nat :=
  (sieve hi).filter (fun p => lo ≤ p)

/-- Embeds Go `evaluateGuess(guess uint, candidates []uint) uint64`
(`main.go`, the simulation variant): for every candidate treated as the
hypothetical solution, compute the feedback `guess` would get, filter the
candidate set by it, and add up the sizes of the filtered sets. The Go code
runs the loop body in goroutines that combine their contributions through an
atomic add and a WaitGroup barrier; addition is commutative and associative,
so the final accumulator value is this fold's sum (`uint64` cannot wrap: each
contribution is at most `len(candidates)`, so the total is at most
`len(candidates)^2`). The length guard of `getFeedbackPerDigit` always passes
here because both digit sequences have length 5. -/
def evaluateGuess (guess : Nat) (candidates : List Nat) : Nat :=
  candidates.foldl
    (fun acc possibleSolution =>
      acc + (incorporateFeedback
        (getFeedbackPerDigit (getDigits guess 5) (getDigits possibleSolution 5))
        candidates).length)
    0

/-- Embeds Go `findBestGuess(candidates []uint) uint` (`main.go`, the
simulation variant), faithfully including its bug: `bestGuess` and
`bestGuessValue` start as zero values, every candidate whose score exceeds
`bestGuessValue` overwrites `bestGuess`, but `bestGuessValue` is never
updated, so it stays 0 for the whole loop. The accumulator pair is
`(bestGuess, bestGuessValue)`. -/
def findBestGuessSim (candidates : List Nat) : Nat :=
  (candidates.foldl
    (fun acc candidateGuess =>
      if evaluateGuess candidateGuess candidates > acc.2 then
        (candidateGuess, acc.2)
      else acc)
    (0, 0)).1

/-- Embeds Go `findDigitFrequencyPerPosition(numbers []uint, numberOfDigits
uint) []map[uint]uint` (the earlier, frequency variant): one map per digit
position; the loop increments `result[j][digits[j]]` once per number, so each
map cell ends up holding the number of listed numbers with that digit at that
position, and a key that was never incremented reads as the Go zero value 0,
which is that same count. Each map is modelled as its final count function. -/
def findDigitFrequencyPerPosition (numbers : List Nat) (numberOfDigits : Nat) :
    List (Nat → Nat) :=
  (List.range numberOfDigits).map (fun j digit =>
    numbers.countP (fun n => (getDigits n numberOfDigits).getD j 0 == digit))

/-- Embeds Go `evaluateGuess(guess uint, digitFrequencyPerPosition
[]map[uint]uint) uint` (the earlier, frequency variant): sum, over the guess's
five digit positions, of the recorded frequency of the guess's digit at that
position. A read of a missing map key is the Go zero value 0, which is the
default of the modelled count functions; the program always passes a
frequency list of length 5, matching the digit count, so the positional read
is in range. -/
def evaluateGuessFreq (guess : Nat) (digitFrequencyPerPosition : List (Nat → Nat)) :
    Nat :=
  (List.range (getDigits guess 5).length).foldl
    (fun acc i =>
      acc + (digitFrequencyPerPosition.getD i (fun _ => 0)) ((getDigits guess 5).getD i 0))
    0

/-- Embeds Go `findBestGuess(candidates []uint, digitFrequencyPerPosition
[]map[uint]uint) uint` (the earlier, frequency variant): start from
`candidates[0]` — which is an index-out-of-range panic on an empty slice,
modelled as `none` — and replace the running best only on a strictly greater
score, so the first candidate of maximal score wins. The accumulator pair is
`(bestGuess, bestGuessValue)`. -/
def findBestGuessFreq (candidates : List Nat)
    (digitFrequencyPerPosition : List (Nat → Nat)) : Option Nat :=
  match candidates with
  | [] => none
  | c0 :: rest =>
    some ((rest.foldl
      (fun acc guess =>
        if evaluateGuessFreq guess digitFrequencyPerPosition > acc.2 then
          (guess, evaluateGuessFreq guess digitFrequencyPerPosition)
        else acc)
      (c0, evaluateGuessFreq c0 digitFrequencyPerPosition)).1)

/-! ## The candidate filter is a single `List.filter` -/

/-- The predicate the first loop of `incorporateFeedback` enforces: at every
Correct position the candidate's digit matches the fed-back digit. -/
def correctCond (feedbackPerDigit : List Feedback) (candidate : Nat) : Bool :=
  (List.range feedbackPerDigit.length).all (fun i =>
    if (feedbackPerDigit.getD i default).feedbackType = .correct then
      (getDigits candidate 5).getD i 0 == (feedbackPerDigit.getD i default).digit
    else true)

/-- The predicate the second loop of `incorporateFeedback` enforces: the
Present and Absent tests of every position, with Correct positions excluded
through `correctPositionsOf`. -/
def presentAbsentCond (feedbackPerDigit : List Feedback) (candidate : Nat) : Bool :=
  (List.range feedbackPerDigit.length).all (fun i =>
    match (feedbackPerDigit.getD i default).feedbackType with
    | .correct => true
    | .present => (List.range 5).any (fun index =>
        (getDigits candidate 5).getD index 0 == (feedbackPerDigit.getD i default).digit
          && index != i && !(contains (correctPositionsOf feedbackPerDigit) index))
    | .absent => (List.range 5).all (fun index =>
        !((getDigits candidate 5).getD index 0 == (feedbackPerDigit.getD i default).digit
          && !(contains (correctPositionsOf feedbackPerDigit) index))))

/-- The conjunction of the two loops' predicates: membership in
`incorporateFeedback`'s result is this single test. -/
def incorporatePred (feedbackPerDigit : List Feedback) (candidate : Nat) : Bool :=
  presentAbsentCond feedbackPerDigit candidate && correctCond feedbackPerDigit candidate

theorem foldl_congr_fun {α β : Type} {f g : β → α → β} (hfg : ∀ b a, f b a = g b a) :
    ∀ (l : List α) (b : β), l.foldl f b = l.foldl g b := by
  intro l
  induction l with
  | nil => intro b; rfl
  | cons x rest ih => intro b; rw [List.foldl_cons, List.foldl_cons, hfg, ih]

theorem foldl_filter {σ : Type} (p : σ → Nat → Bool) :
    ∀ (l : List σ) (cs : List Nat),
      l.foldl (fun acc x => acc.filter (p x)) cs
        = cs.filter (fun c => l.all (fun x => p x c)) := by
  intro l
  induction l with
  | nil => intro cs; simp
  | cons x rest ih =>
    intro cs
    rw [List.foldl_cons, ih, List.filter_filter]
    refine List.filter_congr (fun c _ => ?_)
    simp [Bool.and_comm]

theorem incorporateFeedback_eq_filter (feedbackPerDigit : List Feedback)
    (candidates : List Nat) :
    incorporateFeedback feedbackPerDigit candidates
      = candidates.filter (incorporatePred feedbackPerDigit) := by
  unfold incorporateFeedback
  have h1 : ∀ (acc : List Nat) (i : Nat),
      (if (feedbackPerDigit.getD i default).feedbackType = .correct then
        acc.filter (fun candidate =>
          (getDigits candidate 5).getD i 0 == (feedbackPerDigit.getD i default).digit)
      else acc)
      = acc.filter (fun candidate =>
          if (feedbackPerDigit.getD i default).feedbackType = .correct then
            (getDigits candidate 5).getD i 0 == (feedbackPerDigit.getD i default).digit
          else true) := by
    intro acc i
    cases h : (feedbackPerDigit.getD i default).feedbackType <;> simp
  have h2 : ∀ (acc : List Nat) (i : Nat),
      (match (feedbackPerDigit.getD i default).feedbackType with
      | .correct => acc
      | .present => acc.filter (fun candidate =>
          (List.range 5).any (fun index =>
            (getDigits candidate 5).getD index 0 == (feedbackPerDigit.getD i default).digit
              && index != i && !(contains (correctPositionsOf feedbackPerDigit) index)))
      | .absent => acc.filter (fun candidate =>
          (List.range 5).all (fun index =>
            !((getDigits candidate 5).getD index 0 == (feedbackPerDigit.getD i default).digit
              && !(contains (correctPositionsOf feedbackPerDigit) index)))))
      = acc.filter (fun candidate =>
          match (feedbackPerDigit.getD i default).feedbackType with
          | .correct => true
          | .present => (List.range 5).any (fun index =>
              (getDigits candidate 5).getD index 0 == (feedbackPerDigit.getD i default).digit
                && index != i && !(contains (correctPositionsOf feedbackPerDigit) index))
          | .absent => (List.range 5).all (fun index =>
              !((getDigits candidate 5).getD index 0 == (feedbackPerDigit.getD i default).digit
                && !(contains (correctPositionsOf feedbackPerDigit) index)))) := by
    intro acc i
    cases h : (feedbackPerDigit.getD i default).feedbackType <;> simp [h]
  rw [foldl_congr_fun h1, foldl_filter]
  rw [foldl_congr_fun h2, foldl_filter]
  rw [List.filter_filter]
  rfl

/-! ## C2, C8, C9: the claims about the candidate filter -/

/-- Written from the claim: a position `j` of the report marked Correct.
Positions beyond the report read the zero value, which is not Correct. -/
def isCorrectPosition (feedbackPerDigit : List Feedback) (j : Nat) : Bool :=
  (feedbackPerDigit.getD j default).feedbackType == .correct

/-- Written from the claim (C2): a candidate is consistent with a feedback
report when, at every Correct position, its digit equals the fed-back digit;
for every Present position `i` with digit `d` it contains `d` at some position
other than `i` that is not a Correct position; and for every Absent position
with digit `d` it has no occurrence of `d` at any position outside the set of
Correct positions. -/
def consistentWithFeedback (feedbackPerDigit : List Feedback) (candidate : Nat) :
    Bool :=
  (List.range feedbackPerDigit.length).all (fun i =>
    match (feedbackPerDigit.getD i default).feedbackType with
    | .correct =>
        (getDigits candidate 5).getD i 0 == (feedbackPerDigit.getD i default).digit
    | .present => (List.range 5).any (fun j =>
        (getDigits candidate 5).getD j 0 == (feedbackPerDigit.getD i default).digit
          && j != i && !(isCorrectPosition feedbackPerDigit j))
    | .absent => (List.range 5).all (fun j =>
        isCorrectPosition feedbackPerDigit j
          || (getDigits candidate 5).getD j 0 != (feedbackPerDigit.getD i default).digit))

theorem all_congr_fun {α : Type} {l : List α} {p q : α → Bool}
    (h : ∀ x ∈ l, p x = q x) : l.all p = l.all q := by
  induction l with
  | nil => rfl
  | cons x rest ih =>
    simp only [List.all_cons]
    rw [h x (List.mem_cons_self x rest), ih (fun y hy => h y (List.mem_cons_of_mem x hy))]

theorem all_and_distrib {α : Type} (l : List α) (p q : α → Bool) :
    (l.all p && l.all q) = l.all (fun x => p x && q x) := by
  induction l with
  | nil => rfl
  | cons x rest ih =>
    simp only [List.all_cons, ← ih]
    cases p x <;> cases q x <;> cases rest.all p <;> cases rest.all q <;> rfl

theorem contains_correctPositionsOf (feedbackPerDigit : List Feedback) (j : Nat) :
    contains (correctPositionsOf feedbackPerDigit) j
      = isCorrectPosition feedbackPerDigit j := by
  rw [← Bool.coe_iff_coe, contains_eq_true_iff]
  unfold correctPositionsOf isCorrectPosition
  rw [List.mem_filter, List.mem_range]
  constructor
  · rintro ⟨-, h⟩; exact h
  · intro h
    refine ⟨?_, h⟩
    by_contra hj
    rw [List.getD_eq_default _ _ (Nat.le_of_not_lt hj)] at h
    exact absurd h (by decide)

theorem incorporatePred_eq_consistent (feedbackPerDigit : List Feedback)
    (candidate : Nat) :
    incorporatePred feedbackPerDigit candidate
      = consistentWithFeedback feedbackPerDigit candidate := by
  unfold incorporatePred presentAbsentCond correctCond consistentWithFeedback
  rw [all_and_distrib]
  refine all_congr_fun (fun i _ => ?_)
  cases h : (feedbackPerDigit.getD i default).feedbackType
  · -- absent
    simp only [contains_correctPositionsOf]
    simp only [Bool.and_true, show (FeedbackType.absent = FeedbackType.correct) = False by
      simp, if_false]
    exact all_congr_fun (fun j _ => by
      cases hcp : isCorrectPosition feedbackPerDigit j <;>
        by_cases hx : (getDigits candidate 5).getD j 0 =
          (feedbackPerDigit.getD i default).digit <;> simp [hcp, hx, bne])
  · -- present
    simp [contains_correctPositionsOf]
  · -- correct
    simp

/-- C2: for every feedback report and candidate list, `incorporateFeedback`
returns exactly the input candidates (in order, with multiplicity) that are
consistent with the report: digits match at Correct positions, every Present
digit occurs at some other non-Correct position, and no Absent digit occurs at
any position outside the Correct positions. -/
theorem incorporateFeedback_characterisation (feedbackPerDigit : List Feedback)
    (candidates : List Nat) :
    incorporateFeedback feedbackPerDigit candidates
      = candidates.filter (consistentWithFeedback feedbackPerDigit) := by
  rw [incorporateFeedback_eq_filter]
  exact List.filter_congr (fun c _ => incorporatePred_eq_consistent feedbackPerDigit c)

/-- C8: the candidate filter is idempotent — filtering twice with the same
feedback report gives the same candidate list as filtering once. -/
theorem incorporateFeedback_idempotent (feedbackPerDigit : List Feedback)
    (candidates : List Nat) :
    incorporateFeedback feedbackPerDigit (incorporateFeedback feedbackPerDigit candidates)
      = incorporateFeedback feedbackPerDigit candidates := by
  rw [incorporateFeedback_eq_filter, incorporateFeedback_eq_filter,
    List.filter_filter]
  exact List.filter_congr (fun c _ => Bool.and_self _)

/-- C9: the candidate filter never grows the candidate set — its output is a
subsequence of its input, so in particular it is no longer than the input. -/
theorem incorporateFeedback_shrinks (feedbackPerDigit : List Feedback)
    (candidates : List Nat) :
    (incorporateFeedback feedbackPerDigit candidates).Sublist candidates ∧
      (incorporateFeedback feedbackPerDigit candidates).length ≤ candidates.length := by
  rw [incorporateFeedback_eq_filter]
  exact ⟨List.filter_sublist candidates, List.length_filter_le _ candidates⟩

/-! ## C1: characterisation of the feedback evaluator -/

theorem getD_range_map {α : Type} (f : Nat → α) (n i : Nat) (d : α) :
    (((List.range n).map f).getD i d) = if i < n then f i else d := by
  rw [List.getD_eq_getElem?_getD, List.getElem?_map]
  by_cases h : i < n
  · rw [List.getElem?_range h]
    simp [h]
  · rw [List.getElem?_eq_none (by simpa using Nat.le_of_not_lt h)]
    simp [h]

theorem firstPass_corr_iff (gd sd : List Nat) (j : Nat) :
    ((firstPass gd sd).getD j default).feedbackType = .correct
      ↔ (j < gd.length ∧ gd.getD j 0 = sd.getD j 0) := by
  unfold firstPass
  rw [getD_range_map]
  by_cases hj : j < gd.length
  · rw [if_pos hj]
    by_cases he : gd.getD j 0 = sd.getD j 0
    · rw [if_pos he]
      exact ⟨fun _ => ⟨hj, he⟩, fun _ => rfl⟩
    · rw [if_neg he]
      exact ⟨fun hc => absurd hc (by decide), fun hc => absurd hc.2 he⟩
  · rw [if_neg hj]
    exact ⟨fun hc => absurd hc (by decide), fun hc => absurd hc.1 hj⟩

/-- What the inner scan of the second pass returns, characterised over the
still-to-visit index suffix `List.range' a d` of `List.range sd.length`:
Present on the first non-Correct solution match; otherwise the zero value when
the last index is Correct-marked (the loop falls out without assigning),
Absent when it is not. -/
theorem scanSolution_spec (sd : List Nat) (fp : List Feedback) (gi : Nat) :
    ∀ (d a : Nat), a + d = sd.length →
      ((∃ j, a ≤ j ∧ j < sd.length ∧
          ¬((fp.getD j default).feedbackType = .correct) ∧ sd.getD j 0 = gi) →
        scanSolution sd fp gi (List.range' a d) = ⟨gi, .present⟩) ∧
      ((¬∃ j, a ≤ j ∧ j < sd.length ∧
          ¬((fp.getD j default).feedbackType = .correct) ∧ sd.getD j 0 = gi) →
        a < sd.length →
        (((fp.getD (sd.length - 1) default).feedbackType = .correct →
          scanSolution sd fp gi (List.range' a d) = default) ∧
        (¬((fp.getD (sd.length - 1) default).feedbackType = .correct) →
          scanSolution sd fp gi (List.range' a d) = ⟨gi, .absent⟩))) := by
  intro d
  induction d with
  | zero =>
    intro a ha
    constructor
    · rintro ⟨j, hj1, hj2, -, -⟩
      omega
    · intro _ ha2
      omega
  | succ d ih =>
    intro a ha
    have hrest := ih (a + 1) (by omega)
    rw [List.range'_succ]
    by_cases hca : (fp.getD a default).feedbackType = .correct
    · rw [show scanSolution sd fp gi (a :: List.range' (a + 1) d)
          = scanSolution sd fp gi (List.range' (a + 1) d) from by
        rw [scanSolution, if_pos hca]]
      rcases Nat.eq_or_lt_of_le (Nat.succ_le_of_lt (by omega : a < sd.length)) with hd | hd
      · -- a is the last index: the rest of the range is empty
        have hd0 : d = 0 := by omega
        subst hd0
        constructor
        · rintro ⟨j, hj1, hj2, hj3, -⟩
          have : j = a := by omega
          subst this
          exact absurd hca hj3
        · intro _ _
          refine ⟨fun _ => rfl, fun hc => ?_⟩
          have : sd.length - 1 = a := by omega
          rw [this] at hc
          exact absurd hca hc
      · constructor
        · rintro ⟨j, hj1, hj2, hj3, hj4⟩
          refine hrest.1 ⟨j, ?_, hj2, hj3, hj4⟩
          rcases Nat.eq_or_lt_of_le hj1 with h | h
          · subst h; exact absurd hca hj3
          · omega
        · intro hn _
          exact hrest.2 (fun ⟨j, hj1, hj2, hj3, hj4⟩ =>
            hn ⟨j, by omega, hj2, hj3, hj4⟩) (by omega)
    · by_cases hsa : sd.getD a 0 = gi
      · constructor
        · intro _
          rw [scanSolution, if_neg hca, if_pos hsa]
        · intro hn _
          exact absurd ⟨a, Nat.le_refl a, by omega, hca, hsa⟩ hn
      · by_cases hlast : a = sd.length - 1
        · have hd0 : d = 0 := by omega
          subst hd0
          constructor
          · rintro ⟨j, hj1, hj2, hj3, hj4⟩
            have : j = a := by omega
            subst this
            exact absurd hj4 hsa
          · intro _ _
            constructor
            · intro hc
              rw [← hlast] at hc
              exact absurd hc hca
            · intro _
              rw [scanSolution, if_neg hca, if_neg hsa, if_pos hlast]
        · rw [show scanSolution sd fp gi (a :: List.range' (a + 1) d)
              = scanSolution sd fp gi (List.range' (a + 1) d) from by
            rw [scanSolution, if_neg hca, if_neg hsa, if_neg hlast]]
          constructor
          · rintro ⟨j, hj1, hj2, hj3, hj4⟩
            refine hrest.1 ⟨j, ?_, hj2, hj3, hj4⟩
            rcases Nat.eq_or_lt_of_le hj1 with h | h
            · subst h; exact absurd hj4 hsa
            · omega
          · intro hn _
            exact hrest.2 (fun ⟨j, hj1, hj2, hj3, hj4⟩ =>
              hn ⟨j, by omega, hj2, hj3, hj4⟩) (by omega)

/-- For equal-length digit sequences, `getFeedbackPerDigit` returns a report
of the same length whose position `i` holds exactly one feedback value:
`⟨guessDigits[i], Correct⟩` iff the digits agree at `i`; otherwise
`⟨guessDigits[i], Present⟩` if some solution position `j` that is not itself
Correct-marked carries that guess digit; otherwise Absent — paired with
`guessDigits[i]` when the scan reaches a non-Correct last position, but with
digit 0 (the Go zero value, left by the loop's fall-through) when the last
position is Correct-marked. -/
theorem getFeedbackPerDigit_spec_core (gd sd : List Nat) (hlen : gd.length = sd.length) :
    (getFeedbackPerDigit gd sd).length = gd.length ∧
    ∀ i, i < gd.length →
      ((gd.getD i 0 = sd.getD i 0 →
        (getFeedbackPerDigit gd sd).getD i default = ⟨gd.getD i 0, .correct⟩) ∧
      (¬(gd.getD i 0 = sd.getD i 0) →
        (((∃ j, j < gd.length ∧ ¬(gd.getD j 0 = sd.getD j 0)
            ∧ sd.getD j 0 = gd.getD i 0) →
          (getFeedbackPerDigit gd sd).getD i default = ⟨gd.getD i 0, .present⟩) ∧
        ((¬∃ j, j < gd.length ∧ ¬(gd.getD j 0 = sd.getD j 0)
            ∧ sd.getD j 0 = gd.getD i 0) →
          ((gd.getD (gd.length - 1) 0 = sd.getD (gd.length - 1) 0 →
            (getFeedbackPerDigit gd sd).getD i default = ⟨0, .absent⟩) ∧
          (¬(gd.getD (gd.length - 1) 0 = sd.getD (gd.length - 1) 0) →
            (getFeedbackPerDigit gd sd).getD i default = ⟨gd.getD i 0, .absent⟩)))))) := by
  constructor
  · unfold getFeedbackPerDigit
    rw [List.length_map, List.length_range]
  intro i hi
  have hgetD : (getFeedbackPerDigit gd sd).getD i default
      = (if ((firstPass gd sd).getD i default).feedbackType = .correct then
          (firstPass gd sd).getD i default
        else scanSolution sd (firstPass gd sd) (gd.getD i 0) (List.range sd.length)) := by
    unfold getFeedbackPerDigit
    rw [getD_range_map, if_pos hi]
  constructor
  · intro he
    have hcorr : ((firstPass gd sd).getD i default).feedbackType = .correct :=
      (firstPass_corr_iff gd sd i).mpr ⟨hi, he⟩
    rw [hgetD, if_pos hcorr]
    unfold firstPass
    rw [getD_range_map, if_pos hi, if_pos he]
  · intro he
    have hncorr : ¬(((firstPass gd sd).getD i default).feedbackType = .correct) :=
      fun hc => he ((firstPass_corr_iff gd sd i).mp hc).2
    rw [hgetD, if_neg hncorr]
    have hspec := scanSolution_spec sd (firstPass gd sd) (gd.getD i 0) sd.length 0
      (by omega)
    rw [← List.range_eq_range'] at hspec
    have hcorr_iff : ∀ j, j < sd.length →
        ((¬(((firstPass gd sd).getD j default).feedbackType = .correct))
          ↔ ¬(gd.getD j 0 = sd.getD j 0)) := by
      intro j hj
      rw [firstPass_corr_iff]
      constructor
      · intro hn hjj
        exact hn ⟨by omega, hjj⟩
      · intro hn hp
        exact hn hp.2
    constructor
    · rintro ⟨j, hj1, hj2, hj3⟩
      exact hspec.1 ⟨j, Nat.zero_le j, by omega,
        (hcorr_iff j (by omega)).mpr hj2, hj3⟩
    · intro hnp
      have hno : ¬∃ j, 0 ≤ j ∧ j < sd.length ∧
          ¬(((firstPass gd sd).getD j default).feedbackType = .correct)
            ∧ sd.getD j 0 = gd.getD i 0 := by
        rintro ⟨j, -, hj2, hj3, hj4⟩
        exact hnp ⟨j, by omega, (hcorr_iff j hj2).mp hj3, hj4⟩
      have h0 : (0 : Nat) < sd.length := by omega
      have hlast : sd.length - 1 = gd.length - 1 := by omega
      have hlastlt : gd.length - 1 < gd.length := by omega
      constructor
      · intro hceq
        have hc : ((firstPass gd sd).getD (sd.length - 1) default).feedbackType
            = .correct := by
          rw [hlast]
          exact (firstPass_corr_iff gd sd (gd.length - 1)).mpr ⟨hlastlt, hceq⟩
        rw [(hspec.2 hno h0).1 hc]
        rfl
      · intro hcne
        have hc : ¬(((firstPass gd sd).getD (sd.length - 1) default).feedbackType
            = .correct) := by
          rw [hlast, firstPass_corr_iff]
          exact fun hp => hcne hp.2
        exact (hspec.2 hno h0).2 hc

/-- C1 (amended): for equal-length digit sequences, `getFeedbackPerDigit`
returns a report of the same length in which every position carries exactly
the feedback value characterised by `getFeedbackPerDigit_spec_core`: Correct
with the guess digit iff the digits agree; otherwise Present with the guess
digit when some non-Correct solution position carries it; otherwise Absent,
paired with the guess digit — except that when the last position is
Correct-marked the scan falls through and leaves the zero value `⟨0, Absent⟩`. -/
theorem getFeedbackPerDigit_spec (gd sd : List Nat) (hlen : gd.length = sd.length) :
    (getFeedbackPerDigit gd sd).length = gd.length ∧
    ∀ i, i < gd.length →
      ((gd.getD i 0 = sd.getD i 0 →
        (getFeedbackPerDigit gd sd).getD i default = ⟨gd.getD i 0, .correct⟩) ∧
      (¬(gd.getD i 0 = sd.getD i 0) →
        (((∃ j, j < gd.length ∧ ¬(gd.getD j 0 = sd.getD j 0)
            ∧ sd.getD j 0 = gd.getD i 0) →
          (getFeedbackPerDigit gd sd).getD i default = ⟨gd.getD i 0, .present⟩) ∧
        ((¬∃ j, j < gd.length ∧ ¬(gd.getD j 0 = sd.getD j 0)
            ∧ sd.getD j 0 = gd.getD i 0) →
          ((gd.getD (gd.length - 1) 0 = sd.getD (gd.length - 1) 0 →
            (getFeedbackPerDigit gd sd).getD i default = ⟨0, .absent⟩) ∧
          (¬(gd.getD (gd.length - 1) 0 = sd.getD (gd.length - 1) 0) →
            (getFeedbackPerDigit gd sd).getD i default = ⟨gd.getD i 0, .absent⟩)))))) :=
  getFeedbackPerDigit_spec_core gd sd hlen

/-- Witness for C1's theorem at the guess digits `[1, 2]` against the solution
digits `[3, 2]`: position 1 agrees, so the report holds `⟨2, Correct⟩` there. -/
theorem getFeedbackPerDigit_spec_witness :
    (getFeedbackPerDigit [1, 2] [3, 2]).getD 1 default
      = ⟨2, .correct⟩ :=
  ((getFeedbackPerDigit_spec [1, 2] [3, 2] rfl).2 1 (by decide)).1 rfl

/-- Counterexample to C1 as stated: for the guess digits `[1, 2]` against the
solution digits `[3, 2]`, position 0 of the report does not pair the guess
digit `guessDigits[0] = 1` — the scan falls out of its loop because the last
position is Correct-marked, leaving the zero value `⟨0, Absent⟩`. -/
theorem getFeedbackPerDigit_digit_counterexample :
    ((getFeedbackPerDigit [1, 2] [3, 2]).getD 0 default).digit
      ≠ [1, 2].getD 0 0 := by decide

/-! ## C6: the prime generator -/

theorem markMultiples_length (c : List Bool) (i j : Nat) :
    (markMultiples c i j).length = c.length := by
  induction c, i, j using markMultiples.induct with
  | case1 c i j h ih =>
    rw [markMultiples, dif_pos h, ih, List.length_set]
  | case2 c i j h =>
    rw [markMultiples, dif_neg h]

theorem markMultiples_getD_false_iff (c : List Bool) (i j : Nat) :
    ∀ k, k < c.length →
      ((markMultiples c i j).getD k false = false
        ↔ (c.getD k false = false ∨ ∃ t, k = j + (i + 2) * t)) := by
  induction c, i, j using markMultiples.induct with
  | case1 c i j h ih =>
    intro k hk
    rw [markMultiples, dif_pos h]
    rw [ih k (by rw [List.length_set]; exact hk)]
    have hset : (c.set j false).getD k false = if j = k then false else c.getD k false := by
      rw [List.getD_eq_getElem?_getD, List.getElem?_set]
      by_cases hjk : j = k
      · simp [hjk, h, hk]
      · simp [hjk, List.getD_eq_getElem?_getD]
    rw [hset]
    by_cases hjk : j = k
    · subst hjk
      rw [if_pos rfl]
      constructor
      · intro _
        exact Or.inr ⟨0, by omega⟩
      · intro _
        exact Or.inl rfl
    · rw [if_neg hjk]
      constructor
      · rintro (hc | ⟨t, ht⟩)
        · exact Or.inl hc
        · refine Or.inr ⟨t + 1, ?_⟩
          rw [Nat.mul_succ]
          omega
      · rintro (hc | ⟨t, ht⟩)
        · exact Or.inl hc
        · match t, ht with
          | 0, ht => exact absurd (by omega : j = k) hjk
          | t + 1, ht =>
            refine Or.inr ⟨t, ?_⟩
            rw [Nat.mul_succ] at ht
            omega
  | case2 c i j h =>
    intro k hk
    rw [markMultiples, dif_neg h]
    constructor
    · exact Or.inl
    · rintro (hc | ⟨t, ht⟩)
      · exact hc
      · have : j ≤ k := by omega
        omega

/-- The values struck out so far: `v` has a prime divisor smaller than the
bound `m` and smaller than `v` itself. -/
def killedBelow (m v : Nat) : Prop :=
  ∃ q, Nat.Prime q ∧ q < m ∧ q ∣ v ∧ q < v

theorem killedBelow_self_iff (a : Nat) :
    killedBelow (a + 2) (a + 2) ↔ ¬ Nat.Prime (a + 2) := by
  constructor
  · rintro ⟨q, hq, hlt, hdvd, -⟩ hp
    rcases (Nat.Prime.eq_one_or_self_of_dvd hp q hdvd) with h1 | h2
    · exact absurd h1 (Nat.Prime.ne_one hq)
    · omega
  · intro hnp
    refine ⟨Nat.minFac (a + 2), Nat.minFac_prime (by omega), ?_, Nat.minFac_dvd _, ?_⟩ <;>
    · have hle : Nat.minFac (a + 2) ≤ a + 2 :=
        Nat.le_of_dvd (by omega) (Nat.minFac_dvd _)
      have hne : Nat.minFac (a + 2) ≠ a + 2 := fun he =>
        hnp (Nat.prime_def_minFac.mpr ⟨by omega, he⟩)
      omega

theorem mark_start_iff (a k : Nat) :
    (∃ t, k = (a + 2) * 2 - 2 + (a + 2) * t) ↔ ((a + 2) ∣ (k + 2) ∧ a + 2 < k + 2) := by
  constructor
  · rintro ⟨t, ht⟩
    have hk2 : k + 2 = (a + 2) * (t + 2) := by
      rw [Nat.mul_succ, Nat.mul_succ]
      omega
    constructor
    · exact ⟨t + 2, hk2⟩
    · have : (a + 2) * 1 ≤ (a + 2) * (t + 2) := Nat.mul_le_mul_left _ (by omega)
      omega
  · rintro ⟨⟨m, hm⟩, hlt⟩
    have hm2 : 2 ≤ m := by
      rcases m with - | - | m
      · omega
      · omega
      · omega
    refine ⟨m - 2, ?_⟩
    have hdecomp : (a + 2) * m = (a + 2) * 2 + (a + 2) * (m - 2) := by
      rw [← Nat.mul_add]
      congr 1
      omega
    omega

theorem killedBelow_step (a v : Nat) :
    killedBelow (a + 3) v ↔
      (killedBelow (a + 2) v ∨ (Nat.Prime (a + 2) ∧ (a + 2) ∣ v ∧ a + 2 < v)) := by
  constructor
  · rintro ⟨q, hq, hlt, hdvd, hltv⟩
    by_cases hqe : q = a + 2
    · subst hqe
      exact Or.inr ⟨hq, hdvd, hltv⟩
    · exact Or.inl ⟨q, hq, by omega, hdvd, hltv⟩
  · rintro (⟨q, hq, hlt, hdvd, hltv⟩ | ⟨hp, hdvd, hltv⟩)
    · exact ⟨q, hq, by omega, hdvd, hltv⟩
    · exact ⟨a + 2, hp, by omega, hdvd, hltv⟩

theorem sieveLoop_spec (L : Nat) :
    ∀ (d a : Nat) (c : List Bool) (primes : List Nat),
      c.length = L → a + d = L →
      (∀ k, k < L → (c.getD k false = false ↔ killedBelow (a + 2) (k + 2))) →
      sieveLoop c primes (List.range' a d)
        = primes ++ ((List.range' a d).filter (fun k => Nat.Prime (k + 2))).map (· + 2) := by
  intro d
  induction d with
  | zero =>
    intro a c primes hc ha hinv
    simp [sieveLoop]
  | succ d ih =>
    intro a c primes hc ha hinv
    have haL : a < L := by omega
    rw [List.range'_succ]
    by_cases hp : Nat.Prime (a + 2)
    · have htrue : c.getD a false = true := by
        rcases hb : c.getD a false
        · exact absurd (killedBelow_self_iff a |>.mp ((hinv a haL).mp hb)) (fun h => h hp)
        · rfl
      rw [sieveLoop, htrue, if_pos rfl]
      rw [ih (a + 1) (markMultiples c a ((a + 2) * 2 - 2)) (primes ++ [a + 2])
        (by rw [markMultiples_length]; exact hc) (by omega) ?_]
      · rw [List.filter_cons, if_pos (by simpa using hp), List.map_cons,
          List.append_assoc]
        rfl
      · intro k hk
        rw [markMultiples_getD_false_iff c a _ k (by omega)]
        rw [hinv k hk, mark_start_iff]
        rw [show a + 1 + 2 = a + 3 from rfl, killedBelow_step]
        constructor
        · rintro (h | ⟨hd, hl⟩)
          · exact Or.inl h
          · exact Or.inr ⟨hp, hd, hl⟩
        · rintro (h | ⟨-, hd, hl⟩)
          · exact Or.inl h
          · exact Or.inr ⟨hd, hl⟩
    · have hfalse : c.getD a false = false :=
        (hinv a haL).mpr (killedBelow_self_iff a |>.mpr hp)
      rw [sieveLoop, hfalse]
      rw [if_neg (by simp)]
      rw [ih (a + 1) c primes hc (by omega) ?_]
      · rw [List.filter_cons, if_neg (by simpa using hp)]
      · intro k hk
        rw [hinv k hk, show a + 1 + 2 = a + 3 from rfl, killedBelow_step]
        constructor
        · intro h
          exact Or.inl h
        · rintro (h | ⟨hpp, -, -⟩)
          · exact h
          · exact absurd hpp hp

theorem sieve_eq_filter_range (max : Nat) :
    sieve max = ((List.range (max - 2)).filter (fun k => Nat.Prime (k + 2))).map (· + 2) := by
  unfold sieve
  by_cases h : max < 2
  · rw [if_pos h, show max - 2 = 0 from by omega]
    rfl
  · rw [if_neg h, List.range_eq_range']
    rw [sieveLoop_spec (max - 2) (max - 2) 0 (List.replicate (max - 2) true) []
      (List.length_replicate _ _) (by omega) ?_]
    · rw [List.nil_append]
    · intro k hk
      constructor
      · intro hfalse
        rw [List.getD_eq_getElem?_getD, List.getElem?_replicate, if_pos hk] at hfalse
        cases hfalse
      · rintro ⟨q, hq, hlt, -, -⟩
        have := Nat.Prime.two_le hq
        omega

theorem mem_sieve_iff (hi p : Nat) :
    p ∈ sieve hi ↔ (Nat.Prime p ∧ p < hi) := by
  rw [sieve_eq_filter_range, List.mem_map]
  constructor
  · rintro ⟨k, hk, rfl⟩
    rw [List.mem_filter, List.mem_range] at hk
    exact ⟨by simpa using hk.2, by omega⟩
  · rintro ⟨hp, hlt⟩
    have h2 := Nat.Prime.two_le hp
    refine ⟨p - 2, ?_, by omega⟩
    rw [List.mem_filter, List.mem_range]
    refine ⟨by omega, by simpa [show p - 2 + 2 = p from by omega] using hp⟩

theorem sieve_pairwise (hi : Nat) : (sieve hi).Pairwise (· < ·) := by
  rw [sieve_eq_filter_range]
  exact ((List.pairwise_lt_range _).sublist (List.filter_sublist _)).map _
    (fun a b hab => by omega)

/-- C6: `getPrimes lo hi` returns exactly the primes `p` with `lo ≤ p < hi`,
in strictly ascending order with no duplicates; in particular it is empty
whenever `hi < 2`. -/
theorem getPrimes_spec (lo hi : Nat) :
    (∀ p, p ∈ getPrimes lo hi ↔ (lo ≤ p ∧ p < hi ∧ Nat.Prime p)) ∧
      (getPrimes lo hi).Pairwise (· < ·) ∧ (getPrimes lo hi).Nodup ∧
      (hi < 2 → getPrimes lo hi = []) := by
  have hpw : (getPrimes lo hi).Pairwise (· < ·) :=
    (sieve_pairwise hi).sublist (List.filter_sublist _)
  refine ⟨?_, hpw, hpw.imp Nat.ne_of_lt, ?_⟩
  · intro p
    unfold getPrimes
    rw [List.mem_filter, mem_sieve_iff]
    constructor
    · rintro ⟨⟨hp, hlt⟩, hlo⟩
      exact ⟨by simpa using hlo, hlt, hp⟩
    · rintro ⟨hlo, hlt, hp⟩
      exact ⟨⟨hp, hlt⟩, by simpa using hlo⟩
  · intro h2
    unfold getPrimes sieve
    rw [if_pos h2]
    rfl

/-! ## C5: the frequency heuristic selector -/

/-- The iteration of both Go `findBestGuess` loops, generic in the scoring
function `f`: start from the first candidate and replace the running best
`(bestGuess, bestGuessValue)` only on a strictly greater score. -/
def bestFold (f : Nat → Nat) (b : Nat) (rest : List Nat) : Nat × Nat :=
  rest.foldl (fun acc g => if f g > acc.2 then (g, f g) else acc) (b, f b)

theorem bestFold_spec (f : Nat → Nat) :
    ∀ (rest : List Nat) (b : Nat),
      (bestFold f b rest).2 = f (bestFold f b rest).1 ∧
      f b ≤ (bestFold f b rest).2 ∧
      ∃ pre post, b :: rest = pre ++ (bestFold f b rest).1 :: post ∧
        (∀ g ∈ pre, f g < f (bestFold f b rest).1) ∧
        (∀ g ∈ post, f g ≤ f (bestFold f b rest).1) := by
  intro rest
  induction rest with
  | nil =>
    intro b
    exact ⟨rfl, Nat.le_refl _, [], [], rfl, by simp, by simp⟩
  | cons g rest ih =>
    intro b
    have hstep : ∀ b', bestFold f b' (g :: rest)
        = rest.foldl (fun acc x => if f x > acc.2 then (x, f x) else acc)
            (if f g > f b' then (g, f g) else (b', f b')) := by
      intro b'
      rw [bestFold, List.foldl_cons]
    by_cases hgt : f g > f b
    · rw [hstep, if_pos hgt, show (g, f g) = (g, f g) from rfl]
      have hfold : rest.foldl (fun acc x => if f x > acc.2 then (x, f x) else acc)
          (g, f g) = bestFold f g rest := rfl
      rw [hfold]
      obtain ⟨h1, h2, pre, post, hsplit, hpre, hpost⟩ := ih g
      refine ⟨h1, Nat.le_trans (Nat.le_of_lt hgt) h2, b :: pre, post, ?_, ?_, hpost⟩
      · rw [List.cons_append, ← hsplit]
      · intro x hx
        rcases List.mem_cons.mp hx with rfl | hx'
        · exact Nat.lt_of_lt_of_le hgt (h1 ▸ h2)
        · exact hpre x hx'
    · rw [hstep, if_neg hgt]
      have hfold : rest.foldl (fun acc x => if f x > acc.2 then (x, f x) else acc)
          (b, f b) = bestFold f b rest := rfl
      rw [hfold]
      obtain ⟨h1, h2, pre, post, hsplit, hpre, hpost⟩ := ih b
      refine ⟨h1, h2, ?_⟩
      have hle : f g ≤ f b := Nat.le_of_not_lt hgt
      cases pre with
      | nil =>
        obtain ⟨hb, hrest⟩ := List.cons.injEq _ _ _ _ ▸ hsplit
        refine ⟨[], g :: post, ?_, by simp, ?_⟩
        · rw [List.nil_append] at hsplit ⊢
          rw [← hb, ← hrest]
        · intro x hx
          rcases List.mem_cons.mp hx with rfl | hx'
          · rw [← hb]; exact hle
          · exact hpost x hx'
      | cons p pre' =>
        rw [List.cons_append] at hsplit
        obtain ⟨hb, hrest⟩ := List.cons.injEq _ _ _ _ ▸ hsplit
        subst hb
        refine ⟨b :: g :: pre', post, ?_, ?_, hpost⟩
        · rw [List.cons_append, List.cons_append, ← hrest]
        · intro x hx
          have hblt : f b < f (bestFold f b rest).1 :=
            hpre b (List.mem_cons_self _ _)
          rcases List.mem_cons.mp hx with rfl | hx'
          · exact hblt
          · rcases List.mem_cons.mp hx' with rfl | hx''
            · exact Nat.lt_of_le_of_lt hle hblt
            · exact hpre x (List.mem_cons_of_mem _ hx'')

theorem foldl_add_eq_sum {α : Type} (h : α → Nat) :
    ∀ (l : List α) (a0 : Nat), l.foldl (fun a x => a + h x) a0 = a0 + (l.map h).sum := by
  intro l
  induction l with
  | nil => intro a0; simp
  | cons x rest ih =>
    intro a0
    rw [List.foldl_cons, ih, List.map_cons, List.sum_cons]
    omega

/-- Written from the claim (C5): a guess's frequency score is the sum, over
the 5 digit positions, of the number of candidates carrying the guess's digit
at that position. -/
def frequencyScore (candidates : List Nat) (guess : Nat) : Nat :=
  ((List.range 5).map (fun i =>
    candidates.countP (fun c =>
      (getDigits c 5).getD i 0 == (getDigits guess 5).getD i 0))).sum

theorem evaluateGuessFreq_eq_frequencyScore (candidates : List Nat) (guess : Nat) :
    evaluateGuessFreq guess (findDigitFrequencyPerPosition candidates 5)
      = frequencyScore candidates guess := by
  unfold evaluateGuessFreq frequencyScore findDigitFrequencyPerPosition
  rw [getDigits_length, foldl_add_eq_sum, Nat.zero_add]
  congr 1

/-- C5: on any non-empty candidate list, the frequency-heuristic selector
scores each candidate as the sum over the 5 positions of the number of
candidates sharing its digit at that position, and returns the candidate of
maximal score, ties broken in favour of the first candidate in iteration
order: the list splits as `pre ++ b :: post` with every earlier candidate
scoring strictly less and every later one scoring at most `b`'s score. -/
theorem findBestGuessFreq_spec (c0 : Nat) (rest : List Nat) :
    ∃ b pre post,
      findBestGuessFreq (c0 :: rest) (findDigitFrequencyPerPosition (c0 :: rest) 5)
        = some b ∧
      c0 :: rest = pre ++ b :: post ∧
      (∀ g ∈ pre, frequencyScore (c0 :: rest) g < frequencyScore (c0 :: rest) b) ∧
      (∀ g ∈ post, frequencyScore (c0 :: rest) g ≤ frequencyScore (c0 :: rest) b) ∧
      (∀ g ∈ c0 :: rest, frequencyScore (c0 :: rest) g ≤ frequencyScore (c0 :: rest) b) ∧
      (∀ g, evaluateGuessFreq g (findDigitFrequencyPerPosition (c0 :: rest) 5)
        = frequencyScore (c0 :: rest) g) := by
  obtain ⟨h1, h2, pre, post, hsplit, hpre, hpost⟩ :=
    bestFold_spec
      (fun g => evaluateGuessFreq g (findDigitFrequencyPerPosition (c0 :: rest) 5))
      rest c0
  have hsc : ∀ g, evaluateGuessFreq g (findDigitFrequencyPerPosition (c0 :: rest) 5)
      = frequencyScore (c0 :: rest) g :=
    fun g => evaluateGuessFreq_eq_frequencyScore (c0 :: rest) g
  refine ⟨_, pre, post, rfl, hsplit, ?_, ?_, ?_, hsc⟩
  · intro g hg
    have := hpre g hg
    rwa [hsc, hsc] at this
  · intro g hg
    have := hpost g hg
    rwa [hsc, hsc] at this
  · intro g hg
    rw [hsplit, List.mem_append, List.mem_cons] at hg
    rcases hg with hg | hg | hg
    · have := hpre g hg
      exact Nat.le_of_lt (by rwa [hsc, hsc] at this)
    · subst hg
      exact Nat.le_refl _
    · have := hpost g hg
      rwa [hsc, hsc] at this

/-! ## C3, C4, C10: the simulation heuristic and the selector contracts -/

theorem self_feedback_all_correct (g : Nat) (i : Nat) (hi : i < 5) :
    (getFeedbackPerDigit (getDigits g 5) (getDigits g 5)).getD i default
      = ⟨(getDigits g 5).getD i 0, .correct⟩ :=
  ((getFeedbackPerDigit_spec_core (getDigits g 5) (getDigits g 5) rfl).2 i
    (by rw [getDigits_length]; exact hi)).1 rfl

theorem mem_incorporateFeedback_self (g : Nat) (candidates : List Nat)
    (hg : g ∈ candidates) :
    g ∈ incorporateFeedback
      (getFeedbackPerDigit (getDigits g 5) (getDigits g 5)) candidates := by
  rw [incorporateFeedback_eq_filter, List.mem_filter]
  refine ⟨hg, ?_⟩
  have hlen : (getFeedbackPerDigit (getDigits g 5) (getDigits g 5)).length = 5 := by
    rw [(getFeedbackPerDigit_spec_core (getDigits g 5) (getDigits g 5) rfl).1,
      getDigits_length]
  rw [incorporatePred, Bool.and_eq_true]
  constructor
  · rw [presentAbsentCond, List.all_eq_true]
    intro i hi
    rw [List.mem_range, hlen] at hi
    rw [self_feedback_all_correct g i hi]
  · rw [correctCond, List.all_eq_true]
    intro i hi
    rw [List.mem_range, hlen] at hi
    rw [self_feedback_all_correct g i hi]
    simp

theorem evaluateGuess_pos (g : Nat) (candidates : List Nat) (hg : g ∈ candidates) :
    1 ≤ evaluateGuess g candidates := by
  rw [evaluateGuess, foldl_add_eq_sum, Nat.zero_add]
  have hterm : 1 ≤ (incorporateFeedback
      (getFeedbackPerDigit (getDigits g 5) (getDigits g 5)) candidates).length :=
    List.length_pos.mpr (List.ne_nil_of_mem (mem_incorporateFeedback_self g candidates hg))
  refine Nat.le_trans hterm (List.single_le_sum (fun x _ => Nat.zero_le x) _ ?_)
  exact List.mem_map_of_mem _ hg

theorem foldl_stale_best_mem (f : Nat → Nat) (v : Nat) :
    ∀ (l : List Nat) (b : Nat), (∀ g ∈ l, v < f g) → l ≠ [] →
      (l.foldl (fun acc g => if f g > acc.2 then (g, acc.2) else acc) (b, v)).1 ∈ l := by
  intro l
  induction l with
  | nil =>
    intro b _ hne
    exact absurd rfl hne
  | cons x rest ih =>
    intro b hall _
    rw [List.foldl_cons, if_pos (hall x (List.mem_cons_self _ _))]
    cases hrest : rest with
    | nil =>
      subst hrest
      exact List.mem_cons_self _ _
    | cons y rest' =>
      refine List.mem_cons_of_mem _ ?_
      rw [← hrest]
      exact ih x (fun g hgr => hall g (List.mem_cons_of_mem _ hgr))
        (by rw [hrest]; exact List.cons_ne_nil _ _)

/-- C10 (amended): on an empty candidate list the frequency-variant selector
fails (Go's index-out-of-range panic, modelled as `none`) while the
simulation-variant selector does not fail at all; on every non-empty list both
succeed and return a member of the list. -/
theorem findBestGuess_contract (candidates : List Nat) (freq : List (Nat → Nat)) :
    (findBestGuessFreq candidates freq = none ↔ candidates = []) ∧
    (∀ b, findBestGuessFreq candidates freq = some b → b ∈ candidates) ∧
    (candidates ≠ [] → findBestGuessSim candidates ∈ candidates) := by
  refine ⟨?_, ?_, ?_⟩
  · cases candidates with
    | nil => simp [findBestGuessFreq]
    | cons c0 rest => simp [findBestGuessFreq]
  · cases candidates with
    | nil =>
      intro b hb
      exact absurd hb (by simp [findBestGuessFreq])
    | cons c0 rest =>
      intro b hb
      have hbf : b = (bestFold (fun g => evaluateGuessFreq g freq) c0 rest).1 := by
        have : findBestGuessFreq (c0 :: rest) freq
            = some (bestFold (fun g => evaluateGuessFreq g freq) c0 rest).1 := rfl
        rw [this] at hb
        exact (Option.some.injEq _ _ ▸ hb).symm
      obtain ⟨-, -, pre, post, hsplit, -, -⟩ :=
        bestFold_spec (fun g => evaluateGuessFreq g freq) rest c0
      rw [hbf, hsplit]
      rw [List.mem_append, List.mem_cons]
      exact Or.inr (Or.inl rfl)
  · intro hne
    rw [findBestGuessSim]
    exact foldl_stale_best_mem (fun g => evaluateGuess g candidates) 0 candidates 0
      (fun g hg => evaluateGuess_pos g candidates hg) hne

/-- Counterexample to C10 as stated: on the empty candidate list the
simulation-variant selector does not fail with any error — its loop body never
runs and it returns the zero value 0, which is not a member of the list. -/
theorem findBestGuessSim_empty_counterexample :
    findBestGuessSim [] = 0 ∧ (0 : Nat) ∉ ([] : List Nat) :=
  ⟨rfl, by decide⟩

/-- C4 fails on the code (a consequence of the evaluator's zero-value
fall-through): with candidate list `[10090]` and guess `11111`, the feedback
that `evaluate` computes against the hypothetical solution `10090` filters
`10090` itself out — the report's fall-through positions carry digit 0 marked
Absent, and `10090` contains the digit 0 at non-Correct positions. -/
theorem solution_eliminated_by_own_feedback :
    incorporateFeedback
      (getFeedbackPerDigit (getDigits 11111 5) (getDigits 10090 5)) [10090] = []
      ∧ 10090 ∈ [10090] := by decide

/-- C3 fails on the code: `findBestGuess` (simulation variant) never updates
`bestGuessValue`, so it returns the last candidate with a positive score
rather than the minimal-sum guess. On `[10037, 10007, 10009]` the summed
remaining-candidate score of 10037 is strictly smaller than that of the
returned guess 10009. -/
theorem findBestGuessSim_not_minimal :
    findBestGuessSim [10037, 10007, 10009] = 10009 ∧
      evaluateGuess 10037 [10037, 10007, 10009]
        < evaluateGuess 10009 [10037, 10007, 10009] := by decide

end PrimelSolver
